import Mathlib

/-!
Verification of the path-normalization, configuration-resolution and
temporary-workspace subsystem of the repository (files
`sanguine/common.py` and `sanguine/folders.py`).

Embedding conventions:
* Python strings are modelled as Lean `String` (a list of unicode scalar
  values, matching Python's code-point view); list-level helpers expose
  `String.data` so that Python's slicing/containment primitives have
  direct definitional counterparts.
* Python `assert` failures and `SanguinicError` raised by `abort_if_not`
  are modelled as an explicit error value (`PyErr`), so fallible
  functions return `Except PyErr _`.
* `os.path.abspath` is modelled after CPython's `ntpath`
  (`normpath(join(cwd, path))` with the Windows separator rules) for
  ordinary drive-letter paths.  The process working directory is an
  explicit `cwd` argument.  UNC and device paths (`\\server\share`,
  `\\.\...`) and per-drive working directories for drive-relative paths
  (`"C:x"`) are outside the model; the theorems that depend on `abspath`
  carry well-formedness hypotheses keeping inputs inside the faithful
  region.
* `str.lower` is modelled by `Char.toLower` (ASCII letters), the only
  case mapping relevant to the repository's separator/drive handling.
* Filesystem effects (`os.path.isdir`, `shutil.rmtree`) are modelled by
  oracles: a `TmpPath` acquisition consults `FsOracle`, and the removal
  retry loop consults a per-attempt success predicate.
* The unbounded recursion of `_config_dir_path` is made total with an
  explicit fuel argument (`none` = the Python code does not terminate
  within the given fuel); both the code-side and the spec-side
  definitions share the same fuel so they can be compared exactly.
-/

/-- Error raised by Python code in the model: a failed `assert`, or a
`SanguinicError` raised by `abort_if_not` (carrying its message). -/
inductive PyErr where
  | assertionError : PyErr
  | sanguinicError : String → PyErr
deriving DecidableEq

deriving instance DecidableEq for Except

/-- Python `s.lower()` (ASCII case mapping), at the code-point level. -/
def pyLower (s : String) : String :=
  ⟨s.data.map Char.toLower⟩

/-! ### Python string primitives -/

/-- Python `s.startswith(pre)`. -/
def pyStartswith (s pre : String) : Bool :=
  pre.data.isPrefixOf s.data

/-- Python `s.endswith(suf)`. -/
def pyEndswith (s suf : String) : Bool :=
  suf.data.isSuffixOf s.data

/-- Python `sub in s` (substring containment). -/
def pyInStr (sub s : String) : Bool :=
  decide (sub.data <:+: s.data)

/-- Python `s[n:]` (drop the first `n` code points). -/
def pyDrop (s : String) (n : Nat) : String :=
  ⟨s.data.drop n⟩

/-- Python `len(s)` (number of code points). -/
def pyLen (s : String) : Nat :=
  s.data.length

/-- Replace every non-overlapping occurrence of `old` (nonempty) by
`new`, scanning left to right: Python `s.replace(old, new)`. -/
def replaceL (old new : List Char) : List Char → List Char
  | [] => []
  | c :: rest =>
    if old.isPrefixOf (c :: rest) ∧ old ≠ [] then
      new ++ replaceL old new (rest.drop (old.length - 1))
    else
      c :: replaceL old new rest
termination_by l => l.length
decreasing_by
  · simp only [List.length_cons]
    have := List.length_drop (old.length - 1) rest
    omega
  · simp only [List.length_cons]; omega

/-- Python `s.replace(old, new)` for nonempty `old`. -/
def pyReplace (s old new : String) : String :=
  ⟨replaceL old.data new.data s.data⟩

/-- Python `repr` of a string restricted to the printable characters the
repository passes to it: single quotes around the text, with backslashes
and single quotes escaped. -/
def pyReprChar (c : Char) : List Char :=
  if c = '\\' then ['\\', '\\']
  else if c = Char.ofNat 39 then ['\\', Char.ofNat 39]
  else [c]

/-- Python `repr(s)` (printable-character fragment). -/
def pyRepr (s : String) : String :=
  ⟨Char.ofNat 39 :: (s.data.map pyReprChar).flatten ++ [Char.ofNat 39]⟩

/-! ### Model of `ntpath` (`os.path` on Windows) -/

/-- Windows path separator test (`\` or `/`). -/
def isSepChar (c : Char) : Bool :=
  c = '\\' || c = '/'

/-- CPython `ntpath.splitdrive` for drive-letter paths: a two-character
`X:` drive spec is split off; UNC prefixes are outside the model. -/
def splitDriveL : List Char → List Char × List Char
  | c1 :: ':' :: rest => ([c1, ':'], rest)
  | l => ([], l)

/-- CPython `ntpath.isabs`: the part after the drive starts with a
separator. -/
def isAbsL (l : List Char) : Bool :=
  match (splitDriveL l).2 with
  | c :: _ => isSepChar c
  | [] => false

/-- Python `os.path.isabs` on strings. -/
def isAbsStr (s : String) : Bool :=
  isAbsL s.data

/-- Replace the alternative separator `/` by `\` (first step of
`ntpath.normpath`). -/
def replAlt (l : List Char) : List Char :=
  l.map fun c => if c = '/' then '\\' else c

/-- Python `sep.join(comps)` for `sep = '\\'`. -/
def joinSep : List (List Char) → List Char
  | [] => []
  | [p] => p
  | p :: ps => p ++ '\\' :: joinSep ps

/-- Python `path.split(sep)` for `sep = '\\'`. -/
def splitSep : List Char → List (List Char)
  | [] => [[]]
  | c :: rest =>
    if c = '\\' then [] :: splitSep rest
    else
      match splitSep rest with
      | p :: ps => (c :: p) :: ps
      | [] => [[c]]

/-- Component normalization loop of `ntpath.normpath` (stack form):
empty and `.` components are dropped; `..` pops the previous component,
is dropped at the root, and is kept while leading in a relative path. -/
def normParts (rooted : Bool) : List (List Char) → List (List Char) → List (List Char)
  | acc, [] => acc.reverse
  | acc, c :: cs =>
    if c = [] ∨ c = ['.'] then normParts rooted acc cs
    else if c = ['.', '.'] then
      match acc with
      | [] => if rooted then normParts rooted [] cs else normParts rooted [c] cs
      | a :: acctl =>
        if a = ['.', '.'] then normParts rooted (c :: a :: acctl) cs
        else normParts rooted acctl cs
    else normParts rooted (c :: acc) cs

/-- CPython `ntpath.normpath` for drive-letter paths. -/
def ntNormpathL (p0 : List Char) : List Char :=
  let p := replAlt p0
  let dr := splitDriveL p
  let rooted : Bool := match dr.2 with | c :: _ => c = '\\' | [] => false
  let rest := if rooted then dr.2.dropWhile (· == '\\') else dr.2
  let comps := normParts rooted [] (splitSep rest)
  let pre := dr.1 ++ (if rooted then ['\\'] else [])
  if pre = [] ∧ comps = [] then ['.']
  else pre ++ joinSep comps

/-- Last-character separator test (used by `ntpath.join`). -/
def lastIsSep (l : List Char) : Bool :=
  match l.getLast? with
  | some c => isSepChar c
  | none => false

/-- CPython `ntpath.join(cwd, p)` specialised to a non-absolute `p`
(the only case `abspath` joins): a foreign-drive `p` restarts at `p`;
otherwise `p` is appended to `cwd` with a separator inserted when
needed. -/
def ntJoinRelL (cwd p : List Char) : List Char :=
  let cd := splitDriveL cwd
  let pd := splitDriveL p
  if pd.1 ≠ [] ∧ pd.1.map Char.toLower ≠ cd.1.map Char.toLower then
    pd.1 ++ pd.2
  else
    let drive := if pd.1 ≠ [] then pd.1 else cd.1
    let cpath := if cd.2 ≠ [] ∧ ¬ lastIsSep cd.2 then cd.2 ++ ['\\'] else cd.2
    drive ++ cpath ++ pd.2

/-- CPython `ntpath.abspath` relative to the working directory `cwd`:
`normpath(path)` when `path` is absolute, else
`normpath(join(cwd, path))`. -/
def absPathL (cwd p : List Char) : List Char :=
  if isAbsL p then ntNormpathL p else ntNormpathL (ntJoinRelL cwd p)

/-- Python `os.path.abspath` on strings, with explicit `cwd`. -/
def absPath (cwd p : String) : String :=
  ⟨absPathL cwd.data p.data⟩

/-- Containment test for the alternative separator (`'/' in path`). -/
def hasSlash (s : String) : Bool :=
  s.data.contains '/'

/-! ### `sanguine/common.py`: path normalizers -/

/-- Source `normalize_dir_path`: `abspath`, assert no `/` remains,
assert no trailing `\`, lowercase and append one `\`. -/
def normalize_dir_path (cwd path : String) : Except PyErr String :=
  let p := absPath cwd path
  if hasSlash p then .error .assertionError
  else if pyEndswith p "\\" then .error .assertionError
  else .ok (pyLower p ++ "\\")

/-- Source `is_normalized_dir_path`. -/
def is_normalized_dir_path (cwd path : String) : Bool :=
  path == pyLower (absPath cwd path) ++ "\\"

/-- Source `normalize_file_path`: assert no trailing separator on the
input, `abspath`, assert no `/` remains, lowercase. -/
def normalize_file_path (cwd path : String) : Except PyErr String :=
  if pyEndswith path "\\" || pyEndswith path "/" then .error .assertionError
  else
    let p := absPath cwd path
    if hasSlash p then .error .assertionError
    else .ok (pyLower p)

/-- Source `is_normalized_file_path`. -/
def is_normalized_file_path (cwd path : String) : Bool :=
  path == pyLower (absPath cwd path)

/-- Source `to_short_path`: assert `path.startswith(base)` and return
`path[len(base):]`. -/
def to_short_path (base path : String) : Except PyErr String :=
  if pyStartswith path base then .ok (pyDrop path (pyLen base))
  else .error .assertionError

/-- Source `normalize_file_name`: assert the name has no separator,
lowercase it. -/
def normalize_file_name (fname : String) : Except PyErr String :=
  if pyInStr "\\" fname || pyInStr "/" fname then .error .assertionError
  else .ok (pyLower fname)

/-! ### `sanguine/common.py`: `TmpPath` -/

/-- Source `TmpPath.ADDED_FOLDER` (the marker segment). -/
def ADDED_FOLDER : String := "JBSLtet9"

/-- Source `TmpPath.MAX_RMTREE_RETRIES`. -/
def MAX_RMTREE_RETRIES : Nat := 3

/-- Source `TmpPath.MAX_RESERVE_FOLDERS`. -/
def MAX_RESERVE_FOLDERS : Nat := 10

/-- The marker segment checked by every destructive operation:
`'\\' + ADDED_FOLDER + '\\'`. -/
def MARKER_SEG : String := "\\" ++ ADDED_FOLDER ++ "\\"

/-- Source `TmpPath.__init__`: assert the base ends with the separator,
derive `basetmpdir + ADDED_FOLDER + '\\'`. -/
def tmpPathInit (basetmpdir : String) : Except PyErr String :=
  if pyEndswith basetmpdir "\\" then .ok (basetmpdir ++ ADDED_FOLDER ++ "\\")
  else .error .assertionError

/-- Filesystem oracle for acquisition: whether a directory exists at a
path, and whether `shutil.rmtree` of that path succeeds. -/
structure FsOracle where
  isdir : String → Bool
  rmtreeOk : String → Bool

/-- Reserve slot `i` examined by `TmpPath.__enter__`:
`self.tmpdir + '_' + str(i) + '\\'`. -/
def reserveFolder (tmpdir0 : String) (i : Nat) : String :=
  tmpdir0 ++ "_" ++ toString i ++ "\\"

/-- The reserve-slot scan of `TmpPath.__enter__`, from slot index `i`
with `fuel` slots left: the first slot that does not exist, or that
exists and is removed successfully, is chosen. -/
def findReserveFrom (fs : FsOracle) (tmpdir0 : String) : Nat → Nat → Option String
  | _, 0 => none
  | i, fuel + 1 =>
    let rf := reserveFolder tmpdir0 i
    if ¬ fs.isdir rf then some rf
    else if fs.rmtreeOk rf then some rf
    else findReserveFrom fs tmpdir0 (i + 1) fuel

/-- Source `TmpPath.__enter__` on the initial `tmpdir`: if the marker
directory exists try to remove it; on failure scan the reserve slots;
if no slot works, `abort_if_not(ok)` raises.  `.ok w` means the chosen
workspace `w` is handed to `os.makedirs`. -/
def tmpEnter (fs : FsOracle) (tmpdir0 : String) : Except PyErr String :=
  if fs.isdir tmpdir0 then
    if fs.rmtreeOk tmpdir0 then .ok tmpdir0
    else
      match findReserveFrom fs tmpdir0 0 MAX_RESERVE_FOLDERS with
      | some rf => .ok rf
      | none => .error (.sanguinicError "abort_if_not() failed")
  else .ok tmpdir0

/-- Source `TmpPath.tmp_in_tmp`: assert the base ends with `\` and
contains the marker segment; return `tmpbase + prefix + str(num) + '\\'`. -/
def tmp_in_tmp (tmpbase pfx : String) (num : Int) : Except PyErr String :=
  if ¬ pyEndswith tmpbase "\\" then .error .assertionError
  else if ¬ pyInStr MARKER_SEG tmpbase then .error .assertionError
  else .ok (tmpbase ++ pfx ++ toString num ++ "\\")

/-- Outcome of `TmpPath.rm_tmp_tree`: the marker assertion failed (no
removal attempted), removal succeeded at 0-based attempt `attempt`
after `sleeps` one-second delays, or all retries were spent and the
failure was logged and swallowed after `sleeps` one-second delays. -/
inductive RmResult where
  | assertFailed : RmResult
  | removed : Nat → Nat → RmResult
  | gaveUp : Nat → Nat → RmResult
deriving DecidableEq

/-- Retry loop of `rm_tmp_tree`: decrement the retry counter, attempt
removal (`attemptOk k` tells whether 0-based attempt `k` succeeds),
give up when no retries remain, else sleep one second and retry. -/
def rmTmpTreeLoop (attemptOk : Nat → Bool) : Nat → Nat → Nat → RmResult
  | k, s, nretries =>
    if attemptOk k then .removed k s
    else if nretries - 1 = 0 then .gaveUp (k + 1) s
    else rmTmpTreeLoop attemptOk (k + 1) (s + 1) (nretries - 1)
termination_by _ _ nretries => nretries
decreasing_by omega

/-- Source `TmpPath.rm_tmp_tree`: assert the marker segment is a
substring of the target, then run the bounded retry loop. -/
def rm_tmp_tree (attemptOk : Nat → Bool) (tmppath : String) : RmResult :=
  if pyInStr MARKER_SEG tmppath then rmTmpTreeLoop attemptOk 0 0 MAX_RMTREE_RETRIES
  else .assertFailed

/-! ### `sanguine/folders.py` -/

/-- Values of the parsed JSON configuration mapping: strings, lists of
strings, or anything else. -/
inductive JsonVal where
  | jstr : String → JsonVal
  | jlist : List String → JsonVal
  | jother : JsonVal
deriving DecidableEq

/-- The configuration mapping, in insertion order (Python `dict`). -/
abbrev Config := List (String × JsonVal)

/-- Source `_normalize_config_dir_path`: an absolute value is
normalized directly, a relative one is joined with the config dir. -/
def _normalize_config_dir_path (cwd path configdir : String) : Except PyErr String :=
  if isAbsStr path then normalize_dir_path cwd path
  else normalize_dir_path cwd (configdir ++ path)

/-- The per-key substitution loop of `_config_dir_path`: for each
string-valued key, replace `{key}` by the value; the flag records
whether any single replacement changed the string. -/
def substKeys (config : Config) (path : String) : String × Bool :=
  config.foldl
    (fun acc kv =>
      match kv.2 with
      | .jstr val =>
        let newpath := pyReplace acc.1 ("\x7b" ++ kv.1 ++ "\x7d") val
        if newpath ≠ acc.1 then (newpath, true) else acc
      | _ => acc)
    (path, false)

/-- Source `_config_dir_path`, with fuel making the unbounded recursion
total (`none` = no termination within `fuel` passes): normalize, replace
the config-dir token, run the per-key substitutions, and recurse exactly
when the per-key loop set the `replaced` flag. -/
def _config_dir_path (cwd : String) : Nat → String → String → Config → Option (Except PyErr String)
  | 0, _, _, _ => none
  | fuel + 1, path, configdir, config =>
    match _normalize_config_dir_path cwd path configdir with
    | .error e => some (.error e)
    | .ok p1 =>
      let p2 := pyReplace p1 "\x7bCONFIG-DIR\x7d" configdir
      let sk := substKeys config p2
      if sk.2 then _config_dir_path cwd fuel sk.1 configdir config
      else some (.ok sk.1)

/-- Resolution pass as the claim words it (spec side of the refinement):
normalize, substitute the config-dir placeholder and then the per-key
placeholders, and repeat the whole algorithm whenever this substitution
step changed the string in any way — including a change produced by the
config-directory placeholder alone; return only when a pass performs no
substitution.  Same fuel discipline as the code side. -/
def configDirPathSpecFuel (cwd : String) : Nat → String → String → Config → Option (Except PyErr String)
  | 0, _, _, _ => none
  | fuel + 1, path, configdir, config =>
    match _normalize_config_dir_path cwd path configdir with
    | .error e => some (.error e)
    | .ok p1 =>
      let p2 := pyReplace p1 "\x7bCONFIG-DIR\x7d" configdir
      let sk := substKeys config p2
      if p2 ≠ p1 ∨ sk.2 then configDirPathSpecFuel cwd fuel sk.1 configdir config
      else some (.ok sk.1)

/-- Message of the `abort_if_not` raised by `_normalize_mo2_dir_path`
for an escaping path. -/
def mo2AbortMsg (path : String) : String :=
  "abort_if_not() failed:" ++ "expected path within mo2, got " ++ pyRepr path

/-- Source `_normalize_mo2_dir_path`: resolve relative to the mo2 dir
and `abort_if_not` the result starts with it. -/
def _normalize_mo2_dir_path (cwd path mo2dir : String) : Except PyErr String := do
  let out ← if isAbsStr path then normalize_dir_path cwd path
            else normalize_dir_path cwd (mo2dir ++ path)
  if pyStartswith out mo2dir then pure out
  else .error (.sanguinicError (mo2AbortMsg path))

/-- The built-in list the `{DEFAULT-IGNORES}` sentinel expands to. -/
def DEFAULT_IGNORES : List String :=
  ["plugins\\data\\RootBuilder", "crashDumps", "logs", "webcache",
   "overwrite\\Root\\Logs", "overwrite\\ShaderCache"]

/-- The `ignores` loop of `Folders.__init__`: the sentinel expands to
the normalized built-in defaults under the mo2 dir; every other entry
goes through `_normalize_mo2_dir_path`; the first error aborts the
construction. -/
def processIgnores (cwd mo2dir : String) : List String → Except PyErr (List String)
  | [] => .ok []
  | ig :: rest =>
    if ig = "\x7bDEFAULT-IGNORES\x7d" then
      match DEFAULT_IGNORES.mapM (fun d => normalize_dir_path cwd (mo2dir ++ d)) with
      | .error e => .error e
      | .ok defs =>
        match processIgnores cwd mo2dir rest with
        | .error e => .error e
        | .ok l => .ok (defs ++ l)
    else
      match _normalize_mo2_dir_path cwd ig mo2dir with
      | .error e => .error e
      | .ok r =>
        match processIgnores cwd mo2dir rest with
        | .error e => .error e
        | .ok l => .ok (r :: l)

/-- The `own_mod_names` computation of `Folders.__init__`:
`[normalize_file_name(om) for om in ownmods]`. -/
def ownModNames (ownmods : List String) : Except PyErr (List String) :=
  ownmods.mapM normalize_file_name

/-- Source `Folders.all_mo2_own_mod_dirs`: for each owned mod name,
yield `self.mo2_dir + ownmod` after asserting it is a normalized dir
path (the generator materialized as a list; the first failed assertion
aborts the enumeration). -/
def all_mo2_own_mod_dirs (cwd mo2dir : String) (ownmods : List String) : Except PyErr (List String) :=
  ownmods.mapM fun ownmod =>
    let out := mo2dir ++ ownmod
    if is_normalized_dir_path cwd out then .ok out
    else .error .assertionError

/-! ### Normal forms and well-formedness for the `abspath` model -/

/-- A normal-form path component: nonempty, not `.` or `..`, free of
separators and colons. -/
def goodComp (x : List Char) : Prop :=
  x ≠ [] ∧ x ≠ ['.'] ∧ x ≠ ['.', '.'] ∧ '\\' ∉ x ∧ '/' ∉ x ∧ ':' ∉ x

/-- A drive prefix as produced by `splitDriveL`: empty, or a
two-character `c:` spec whose letter is not a separator or a colon. -/
def goodDrive (d : List Char) : Prop :=
  d = [] ∨ ∃ c0, d = [c0, ':'] ∧ isSepChar c0 = false ∧ c0 ≠ ':'

/-- Normal form of `ntpath.normpath` output for rooted paths: a good
drive, a root separator, separator-joined good components. -/
def NF (a : List Char) : Prop :=
  ∃ d comps, goodDrive d ∧ (∀ x ∈ comps, goodComp x) ∧
    a = d ++ '\\' :: joinSep comps

/-- Well-formed input for the `abspath` model: no colon outside the
drive spec, and a drive letter that is neither a separator nor a colon
(this keeps UNC-like `\:` pathologies, which Windows treats
specially, outside the model). -/
def wfPathB (s : String) : Bool :=
  let dr := splitDriveL s.data
  (!(dr.2.contains ':')) &&
    (match dr.1 with
     | [] => true
     | c :: _ => !(isSepChar c) && !(c == ':'))

/-- The path is not drive-relative (like `"C:x"`): it has no drive spec
or it is absolute.  Windows resolves drive-relative paths against
per-drive working directories, which this model does not carry. -/
def driveRelFreeB (s : String) : Bool :=
  ((splitDriveL s.data).1 == []) || isAbsL s.data

/-! ### Basic facts about the string primitives -/

theorem pyInStr_iff {sub s : String} : pyInStr sub s = true ↔ sub.data <:+: s.data := by
  simp [pyInStr]

theorem pyEndswith_iff {s suf : String} : pyEndswith s suf = true ↔ suf.data <:+ s.data := by
  simp [pyEndswith]

theorem pyStartswith_iff {s pre : String} : pyStartswith s pre = true ↔ pre.data <+: s.data := by
  simp [pyStartswith]

theorem rmTmpTreeLoop_ne_assertFailed (a : Nat → Bool) :
    ∀ n k s, rmTmpTreeLoop a k s n ≠ RmResult.assertFailed := by
  intro n
  induction n using Nat.strong_induction_on with
  | _ n ih =>
    intro k s
    rw [rmTmpTreeLoop]
    split
    · simp
    · split
      · simp
      · next h1 h2 =>
        have hlt : n - 1 < n := by omega
        exact ih (n - 1) hlt (k + 1) (s + 1)

/-! ### Claim theorems for the temporary workspace -/

/-- Claim C1: for every path lacking the marker segment
`\JBSLtet9\`, `rm_tmp_tree` fails at the marker assertion — for every
possible behaviour of the removal attempts, i.e. before any removal is
attempted. -/
theorem C1_marker_safety (p : String) (a : Nat → Bool)
    (h : pyInStr MARKER_SEG p = false) :
    rm_tmp_tree a p = RmResult.assertFailed := by
  simp [rm_tmp_tree, h]

theorem C1_marker_safety_witness :
    pyInStr MARKER_SEG "c:\\important\\" = false ∧
    rm_tmp_tree (fun _ => true) "c:\\important\\" = RmResult.assertFailed :=
  ⟨by decide, C1_marker_safety "c:\\important\\" (fun _ => true) (by decide)⟩

/-- Claim C8: on a marker-bearing path, `rm_tmp_tree` makes at most
`MAX_RMTREE_RETRIES = 3` attempts; if attempt `k` (0-based) is the
first to succeed, the tree ends removed after `k` one-second delays and
no error is surfaced; if all 3 attempts fail, the failure is swallowed
(`gaveUp`, a returned value, not a raised error) after 2 one-second
delays. -/
theorem C8_release_retries (p : String) (a : Nat → Bool)
    (h : pyInStr MARKER_SEG p = true) :
    (∃ k, k < MAX_RMTREE_RETRIES ∧ a k = true ∧ (∀ j, j < k → a j = false) ∧
      rm_tmp_tree a p = RmResult.removed k k) ∨
    ((∀ j, j < MAX_RMTREE_RETRIES → a j = false) ∧
      rm_tmp_tree a p = RmResult.gaveUp MAX_RMTREE_RETRIES (MAX_RMTREE_RETRIES - 1)) := by
  have hrm : rm_tmp_tree a p = rmTmpTreeLoop a 0 0 MAX_RMTREE_RETRIES := by
    simp [rm_tmp_tree, h]
  by_cases h0 : a 0 = true
  · left
    refine ⟨0, by decide, h0, by omega, ?_⟩
    rw [hrm, MAX_RMTREE_RETRIES, rmTmpTreeLoop, if_pos h0]
  · by_cases h1 : a 1 = true
    · left
      refine ⟨1, by decide, h1, ?_, ?_⟩
      · intro j hj
        interval_cases j
        simpa using h0
      · rw [hrm, MAX_RMTREE_RETRIES, rmTmpTreeLoop]
        rw [if_neg (by simp [h0]), if_neg (by decide)]
        rw [rmTmpTreeLoop, if_pos h1]
    · by_cases h2 : a 2 = true
      · left
        refine ⟨2, by decide, h2, ?_, ?_⟩
        · intro j hj
          interval_cases j
          · simpa using h0
          · simpa using h1
        · rw [hrm, MAX_RMTREE_RETRIES, rmTmpTreeLoop]
          rw [if_neg (by simp [h0]), if_neg (by decide)]
          rw [rmTmpTreeLoop, if_neg (by simp [h1]), if_neg (by decide)]
          rw [rmTmpTreeLoop, if_pos h2]
      · right
        constructor
        · intro j hj
          rw [MAX_RMTREE_RETRIES] at hj
          interval_cases j
          · simpa using h0
          · simpa using h1
          · simpa using h2
        · rw [hrm, MAX_RMTREE_RETRIES, rmTmpTreeLoop]
          rw [if_neg (by simp [h0]), if_neg (by decide)]
          rw [rmTmpTreeLoop, if_neg (by simp [h1]), if_neg (by decide)]
          rw [rmTmpTreeLoop, if_neg (by simp [h2]), if_pos (by decide)]

theorem C8_release_retries_witness :
    (∃ k, k < MAX_RMTREE_RETRIES ∧ (fun j => j == 2) k = true ∧
      (∀ j, j < k → (fun j => j == 2) j = false) ∧
      rm_tmp_tree (fun j => j == 2) "c:\\tmp\\JBSLtet9\\" = RmResult.removed k k) ∨
    ((∀ j, j < MAX_RMTREE_RETRIES → (fun j => j == 2) j = false) ∧
      rm_tmp_tree (fun j => j == 2) "c:\\tmp\\JBSLtet9\\" =
        RmResult.gaveUp MAX_RMTREE_RETRIES (MAX_RMTREE_RETRIES - 1)) :=
  C8_release_retries "c:\\tmp\\JBSLtet9\\" (fun j => j == 2) (by decide)

/-- Claim C10: for a marker-bearing base ending with the separator,
`tmp_in_tmp` returns exactly `tmpbase + prefix + str(num) + '\\'`,
which ends with the separator, still contains the marker segment, and
passes `rm_tmp_tree`'s marker assertion. -/
theorem C10_tmp_in_tmp_stays_inside (tmpbase pfx : String) (num : Int)
    (h1 : pyEndswith tmpbase "\\" = true)
    (h2 : pyInStr MARKER_SEG tmpbase = true) :
    tmp_in_tmp tmpbase pfx num = .ok (tmpbase ++ pfx ++ toString num ++ "\\") ∧
    pyEndswith (tmpbase ++ pfx ++ toString num ++ "\\") "\\" = true ∧
    pyInStr MARKER_SEG (tmpbase ++ pfx ++ toString num ++ "\\") = true ∧
    (∀ a, rm_tmp_tree a (tmpbase ++ pfx ++ toString num ++ "\\") ≠ RmResult.assertFailed) := by
  have hin : pyInStr MARKER_SEG (tmpbase ++ pfx ++ toString num ++ "\\") = true := by
    rw [pyInStr_iff] at h2 ⊢
    have hp : tmpbase.data <+: (tmpbase ++ pfx ++ toString num ++ "\\").data := by
      simp only [String.data_append, List.append_assoc]
      exact List.prefix_append _ _
    exact h2.trans hp.isInfix
  refine ⟨by simp [tmp_in_tmp, h1, h2], ?_, hin, ?_⟩
  · rw [pyEndswith_iff]
    have : (tmpbase ++ pfx ++ toString num ++ "\\").data =
        (tmpbase ++ pfx ++ toString num).data ++ "\\".data := String.data_append _ _
    rw [this]
    exact List.suffix_append _ _
  · intro a
    rw [rm_tmp_tree, if_pos hin]
    exact rmTmpTreeLoop_ne_assertFailed a MAX_RMTREE_RETRIES 0 0

theorem C10_tmp_in_tmp_stays_inside_witness :
    tmp_in_tmp "c:\\tmp\\JBSLtet9\\" "x" 3 = .ok ("c:\\tmp\\JBSLtet9\\" ++ "x" ++ toString (3 : Int) ++ "\\") ∧
    pyEndswith ("c:\\tmp\\JBSLtet9\\" ++ "x" ++ toString (3 : Int) ++ "\\") "\\" = true ∧
    pyInStr MARKER_SEG ("c:\\tmp\\JBSLtet9\\" ++ "x" ++ toString (3 : Int) ++ "\\") = true ∧
    (∀ a, rm_tmp_tree a ("c:\\tmp\\JBSLtet9\\" ++ "x" ++ toString (3 : Int) ++ "\\") ≠ RmResult.assertFailed) :=
  C10_tmp_in_tmp_stays_inside "c:\\tmp\\JBSLtet9\\" "x" 3 (by decide) (by decide)

/-! ### Claim theorems for the path primitives -/

/-- Claim C9: for every base `b` and short remainder `s`,
`to_short_path(b, b + s)` succeeds and returns exactly `s` (proved for
all strings, hence in particular for normalized dirs and short paths). -/
theorem C9_to_short_path_round_trip (b s : String) :
    to_short_path b (b ++ s) = .ok s := by
  have hdata : (b ++ s).data = b.data ++ s.data := String.data_append b s
  have hpre : pyStartswith (b ++ s) b = true := by
    simp [pyStartswith, hdata]
  rw [to_short_path, if_pos hpre]
  have : pyDrop (b ++ s) (pyLen b) = s := by
    simp only [pyDrop, pyLen, hdata, List.drop_left]
  rw [this]

/-- Claim C7: `ownmods = ["MyPatch"]` resolves to `["mypatch"]` as the
claim states, but the owned-mod-directory enumerator then fails its own
`is_normalized_dir_path` assertion, because the code yields
`mo2_dir + ownmod` without the trailing separator; the value the spec
describes, `mo2_dir + "mypatch" + "\\"`, does satisfy the invariant. -/
theorem C7_own_mod_dirs_assertion_fails :
    ownModNames ["MyPatch"] = .ok ["mypatch"] ∧
    all_mo2_own_mod_dirs "c:\\cwd" "c:\\mo2\\" ["mypatch"] = .error .assertionError ∧
    is_normalized_dir_path "c:\\cwd" ("c:\\mo2\\" ++ "mypatch") = false ∧
    is_normalized_dir_path "c:\\cwd" ("c:\\mo2\\" ++ "mypatch" ++ "\\") = true := by
  refine ⟨by decide, by decide, by decide, by decide⟩

/-- Scan lemma: if every reserve slot in the window is an existing,
unremovable directory, the scan finds nothing. -/
theorem findReserveFrom_none (fs : FsOracle) (t0 : String) :
    ∀ fuel i,
      (∀ j, j < fuel → fs.isdir (reserveFolder t0 (i + j)) = true ∧
        fs.rmtreeOk (reserveFolder t0 (i + j)) = false) →
      findReserveFrom fs t0 i fuel = none := by
  intro fuel
  induction fuel with
  | zero => intro i _; rfl
  | succ n ih =>
    intro i h
    have h0 := h 0 (by omega)
    rw [Nat.add_zero] at h0
    rw [findReserveFrom]
    rw [if_neg (by simp [h0.1]), if_neg (by simp [h0.2])]
    apply ih
    intro j hj
    have h2 := h (j + 1) (by omega)
    have he : i + (j + 1) = i + 1 + j := by omega
    rw [he] at h2
    exact h2

/-- Scan lemma: the scan returns the first slot that does not exist or
is removed successfully. -/
theorem findReserveFrom_found (fs : FsOracle) (t0 : String) :
    ∀ fuel i k, i ≤ k → k < i + fuel →
      (∀ j, i ≤ j → j < k → fs.isdir (reserveFolder t0 j) = true ∧
        fs.rmtreeOk (reserveFolder t0 j) = false) →
      (fs.isdir (reserveFolder t0 k) = false ∨ fs.rmtreeOk (reserveFolder t0 k) = true) →
      findReserveFrom fs t0 i fuel = some (reserveFolder t0 k) := by
  intro fuel
  induction fuel with
  | zero => intro _ k h1 h2 _ _; omega
  | succ n ih =>
    intro i k h1 h2 hmid hk
    rw [findReserveFrom]
    rcases Nat.eq_or_lt_of_le h1 with heq | hlt
    · subst heq
      rcases hk with hk | hk
      · rw [if_pos (by simp [hk])]
      · by_cases hd : fs.isdir (reserveFolder t0 i) = true
        · rw [if_neg (by simp [hd]), if_pos hk]
        · rw [if_pos (by simp at hd ⊢; exact hd)]
    · have hi := hmid i (Nat.le_refl i) hlt
      rw [if_neg (by simp [hi.1]), if_neg (by simp [hi.2])]
      exact ih (i + 1) k hlt (by omega) (fun j hj1 hj2 => hmid j (by omega) hj2) hk

/-- Claim C3: when the marker directory pre-exists and cannot be
removed, and all `MAX_RESERVE_FOLDERS = 10` reserve slots also exist
and cannot be removed, acquisition raises the fatal `abort_if_not`
error instead of returning (hence reusing) any directory. -/
theorem C3_all_slots_unremovable_fatal (fs : FsOracle) (t0 : String)
    (h1 : fs.isdir t0 = true) (h2 : fs.rmtreeOk t0 = false)
    (h3 : ∀ i, i < MAX_RESERVE_FOLDERS →
      fs.isdir (reserveFolder t0 i) = true ∧ fs.rmtreeOk (reserveFolder t0 i) = false) :
    tmpEnter fs t0 = .error (.sanguinicError "abort_if_not() failed") := by
  rw [tmpEnter, if_pos h1, if_neg (by simp [h2])]
  rw [findReserveFrom_none fs t0 MAX_RESERVE_FOLDERS 0 (fun j hj => by simpa using h3 j hj)]

theorem C3_all_slots_unremovable_fatal_witness :
    tmpEnter ⟨fun _ => true, fun _ => false⟩ "c:\\tmp\\JBSLtet9\\" =
      .error (.sanguinicError "abort_if_not() failed") :=
  C3_all_slots_unremovable_fatal ⟨fun _ => true, fun _ => false⟩ "c:\\tmp\\JBSLtet9\\"
    rfl rfl (fun i _ => ⟨rfl, rfl⟩)

/-- Filesystem oracle exhibiting the C6 counterexample: only the marker
directory exists, nothing is removable. -/
def fsC6 : FsOracle :=
  ⟨fun s => s == "c:\\tmp\\JBSLtet9\\", fun _ => false⟩

/-- Claim C6, counterexample: with `base_dir = "c:\tmp\"`, the marker
directory existing and unremovable, and nothing else existing (in
particular no directory at any path of the claimed form
`base_dir + MARKER + "_" + i + sep`), acquisition selects
`"c:\tmp\JBSLtet9\_0\"` — not the claimed `"c:\tmp\JBSLtet9_0\"`: the
reserve slots live *inside* the marker directory, with a separator
before the underscore. -/
theorem C6_reserve_slot_paths_counterexample :
    tmpPathInit "c:\\tmp\\" = .ok "c:\\tmp\\JBSLtet9\\" ∧
    fsC6.isdir "c:\\tmp\\JBSLtet9\\" = true ∧
    fsC6.rmtreeOk "c:\\tmp\\JBSLtet9\\" = false ∧
    (∀ i, i < MAX_RESERVE_FOLDERS →
      fsC6.isdir ("c:\\tmp\\" ++ ADDED_FOLDER ++ "_" ++ toString i ++ "\\") = false) ∧
    tmpEnter fsC6 "c:\\tmp\\JBSLtet9\\" = .ok "c:\\tmp\\JBSLtet9\\_0\\" ∧
    "c:\\tmp\\JBSLtet9\\_0\\" ≠ "c:\\tmp\\" ++ ADDED_FOLDER ++ "_" ++ toString (0 : Nat) ++ "\\" := by
  refine ⟨by decide, by decide, by decide, by decide, by decide, by decide⟩

/-- Claim C6 as amended: the reserve slots examined are
`tmpdir + "_" + i + sep` where `tmpdir = base_dir + MARKER + sep` (an
extra separator before the underscore, i.e. numbered subdirectories of
the marker path), for `i` in `0..9` in increasing order, and the
workspace becomes the first slot that does not exist or is removed
successfully. -/
theorem C6_reserve_slots_amended (fs : FsOracle) (base t0 : String) (k : Nat)
    (hinit : tmpPathInit base = .ok t0)
    (h1 : fs.isdir t0 = true) (h2 : fs.rmtreeOk t0 = false)
    (hk : k < MAX_RESERVE_FOLDERS)
    (hbefore : ∀ j, j < k → fs.isdir (reserveFolder t0 j) = true ∧
      fs.rmtreeOk (reserveFolder t0 j) = false)
    (hkok : fs.isdir (reserveFolder t0 k) = false ∨ fs.rmtreeOk (reserveFolder t0 k) = true) :
    tmpEnter fs t0 = .ok (reserveFolder t0 k) ∧
    reserveFolder t0 k = base ++ ADDED_FOLDER ++ "\\" ++ "_" ++ toString k ++ "\\" := by
  have ht0 : t0 = base ++ ADDED_FOLDER ++ "\\" := by
    rw [tmpPathInit] at hinit
    split at hinit
    · exact (Except.ok.injEq _ _ ▸ hinit).symm
    · exact absurd hinit (by simp)
  constructor
  · rw [tmpEnter, if_pos h1, if_neg (by simp [h2])]
    rw [findReserveFrom_found fs t0 MAX_RESERVE_FOLDERS 0 k (Nat.zero_le k) (by omega)
      (fun j _ hj => hbefore j hj) hkok]
  · rw [reserveFolder, ht0]

theorem C6_reserve_slots_amended_witness :
    tmpEnter fsC6 "c:\\tmp\\JBSLtet9\\" = .ok (reserveFolder "c:\\tmp\\JBSLtet9\\" 0) ∧
    reserveFolder "c:\\tmp\\JBSLtet9\\" 0 =
      "c:\\tmp\\" ++ ADDED_FOLDER ++ "\\" ++ "_" ++ toString (0 : Nat) ++ "\\" :=
  C6_reserve_slots_amended fsC6 "c:\\tmp\\" "c:\\tmp\\JBSLtet9\\" 0 (by decide) (by decide)
    (by decide) (by decide) (by omega) (Or.inl (by decide))

/-! ### Character-level facts about `str.lower` -/

theorem toNat_ofNat_of_valid (m : Nat) (h : m.isValidChar) : (Char.ofNat m).toNat = m := by
  rw [Char.ofNat, dif_pos h]
  rfl

theorem charToLower_spec (c : Char) :
    (Char.toLower c = c ∧ ¬(65 ≤ c.toNat ∧ c.toNat ≤ 90)) ∨
    ((Char.toLower c).toNat = c.toNat + 32 ∧ 65 ≤ c.toNat ∧ c.toNat ≤ 90) := by
  rw [Char.toLower]
  by_cases h : c.toNat ≥ 65 ∧ c.toNat ≤ 90
  · right
    rw [if_pos h]
    exact ⟨toNat_ofNat_of_valid _ (Or.inl (by omega)), h.1, h.2⟩
  · left
    rw [if_neg h]
    exact ⟨rfl, fun hc => h ⟨hc.1, hc.2⟩⟩

theorem charToLower_ne_C (c : Char) : Char.toLower c ≠ 'C' := by
  rcases charToLower_spec c with ⟨h1, h2⟩ | ⟨h1, h2, h3⟩
  · intro he
    rw [h1] at he
    subst he
    exact h2 (by decide)
  · intro he
    rw [he] at h1
    have : ('C' : Char).toNat = 67 := by decide
    omega

theorem charToLower_toLower (c : Char) : Char.toLower (Char.toLower c) = Char.toLower c := by
  rcases charToLower_spec c with ⟨h1, _⟩ | ⟨h1, h2, h3⟩
  · rw [h1]
    exact h1
  · rcases charToLower_spec (Char.toLower c) with ⟨h4, _⟩ | ⟨_, h5, h6⟩
    · exact h4
    · omega

theorem charToLower_eq_special {t : Char} (ht1 : ¬(65 ≤ t.toNat ∧ t.toNat ≤ 90))
    (ht2 : ¬(97 ≤ t.toNat ∧ t.toNat ≤ 122)) (c : Char) :
    Char.toLower c = t ↔ c = t := by
  constructor
  · intro he
    rcases charToLower_spec c with ⟨h1, _⟩ | ⟨h1, h2, h3⟩
    · rw [← h1]; exact he
    · exfalso
      rw [he] at h1
      exact ht2 ⟨by omega, by omega⟩
  · intro he
    subst he
    rcases charToLower_spec c with ⟨h1, _⟩ | ⟨_, h2, h3⟩
    · exact h1
    · exact absurd ⟨h2, h3⟩ ht1

/-! ### `str.replace` is the identity when a character of the pattern
is absent -/

theorem replaceL_eq_self (old new : List Char) :
    ∀ l, (∃ c, c ∈ old ∧ c ∉ l) → replaceL old new l = l := by
  intro l
  induction l with
  | nil => intro _; rw [replaceL]
  | cons c rest ih =>
    rintro ⟨ch, hch1, hch2⟩
    rw [replaceL]
    have hnp : ¬(old.isPrefixOf (c :: rest) = true ∧ old ≠ []) := by
      rintro ⟨hp, -⟩
      exact hch2 ((List.isPrefixOf_iff_prefix.mp hp).subset hch1)
    rw [if_neg hnp]
    rw [ih ⟨ch, hch1, fun hm => hch2 (List.mem_cons_of_mem c hm)⟩]

theorem normalize_dir_path_ok (cwd path q : String)
    (h : normalize_dir_path cwd path = .ok q) :
    q = pyLower (absPath cwd path) ++ "\\" := by
  rw [normalize_dir_path] at h
  split at h
  · exact absurd h (by simp)
  · split at h
    · exact absurd h (by simp)
    · exact (Except.ok.inj h).symm

theorem C_not_mem_lower_append_sep (t : String) : 'C' ∉ (pyLower t ++ "\\").data := by
  intro hmem
  rw [String.data_append] at hmem
  rcases List.mem_append.mp hmem with hm | hm
  · obtain ⟨c, _, hc⟩ := List.mem_map.mp hm
    exact charToLower_ne_C c hc
  · revert hm
    decide

/-! ### Claim theorem for configuration-path resolution -/

/-- Claim C2: one resolution pass normalizes (joining a relative value
with the base first), replaces the config-dir placeholder, then for
every string-valued key replaces the key's placeholder; the code
repeats exactly when the per-key loop changed the string, while the
claim also repeats on a change made by the config-dir placeholder alone
— and the two coincide, because the normalized string is all-lowercase
while `{CONFIG-DIR}` contains an upper-case letter, so that replacement
can never fire.  The theorem proves the code-side resolver equal to the
spec-side resolver (`configDirPathSpecFuel`) for all inputs and fuels. -/
theorem C2_resolution_fixed_point (cwd : String) :
    ∀ fuel path configdir config,
      _config_dir_path cwd fuel path configdir config =
        configDirPathSpecFuel cwd fuel path configdir config := by
  intro fuel
  induction fuel with
  | zero => intro _ _ _; rfl
  | succ n ih =>
    intro path configdir config
    rw [_config_dir_path, configDirPathSpecFuel]
    cases hnorm : _normalize_config_dir_path cwd path configdir with
    | error e => simp only [hnorm]
    | ok p1 =>
      simp only [hnorm]
      have hshape : ∃ t, p1 = pyLower t ++ "\\" := by
        rw [_normalize_config_dir_path] at hnorm
        split at hnorm
        · exact ⟨_, normalize_dir_path_ok _ _ _ hnorm⟩
        · exact ⟨_, normalize_dir_path_ok _ _ _ hnorm⟩
      obtain ⟨t, ht⟩ := hshape
      have hrep : pyReplace p1 "\x7bCONFIG-DIR\x7d" configdir = p1 := by
        rw [pyReplace]
        rw [replaceL_eq_self _ _ _ ⟨'C', by decide, by rw [ht]; exact C_not_mem_lower_append_sep t⟩]
      rw [hrep]
      simp only [ne_eq, not_true_eq_false, false_or]
      by_cases hsk : (substKeys config p1).2 = true
      · rw [if_pos hsk, if_pos hsk]
        exact ih _ configdir config
      · rw [if_neg hsk, if_neg hsk]

/-! ### Claim theorem for the `ignores` containment check -/

theorem processIgnores_append (cwd mo2dir : String) (l1 l2 : List String) :
    processIgnores cwd mo2dir (l1 ++ l2) =
      match processIgnores cwd mo2dir l1 with
      | .error er => .error er
      | .ok a =>
        match processIgnores cwd mo2dir l2 with
        | .error er => .error er
        | .ok b => .ok (a ++ b) := by
  induction l1 with
  | nil =>
    rw [List.nil_append]
    show processIgnores cwd mo2dir l2 = _
    cases processIgnores cwd mo2dir l2 <;> simp [processIgnores]
  | cons ig rest ih =>
    rw [List.cons_append]
    by_cases hs : ig = "\x7bDEFAULT-IGNORES\x7d"
    · rw [processIgnores, processIgnores, if_pos hs, if_pos hs]
      cases hm : DEFAULT_IGNORES.mapM (fun d => normalize_dir_path cwd (mo2dir ++ d)) with
      | error er => rfl
      | ok defs =>
        rw [ih]
        cases h1 : processIgnores cwd mo2dir rest with
        | error er => rfl
        | ok a =>
          cases h2 : processIgnores cwd mo2dir l2 with
          | error er => rfl
          | ok b => simp
    · rw [processIgnores, processIgnores, if_neg hs, if_neg hs]
      cases hm : _normalize_mo2_dir_path cwd ig mo2dir with
      | error er => rfl
      | ok r =>
        rw [ih]
        cases h1 : processIgnores cwd mo2dir rest with
        | error er => rfl
        | ok a =>
          cases h2 : processIgnores cwd mo2dir l2 with
          | error er => rfl
          | ok b => rfl

/-- Claim C4: a concrete (non-sentinel) `ignores` entry is resolved
relative to `mo2_dir` (absolute entries normalized directly, relative
ones joined with `mo2_dir`); if the resolved path does not start with
`mo2_dir`, `Folders` construction fails with the `abort_if_not` error
whose message names the offending entry (`repr`-quoted); if it does,
the entry is accepted in place, and the accepted value decomposes as
`mo2_dir ++ short` with `to_short_path` recovering exactly that
remainder. -/
theorem C4_ignores_containment (cwd mo2dir e out : String) (pre post : List String)
    (lp : List String)
    (he : e ≠ "\x7bDEFAULT-IGNORES\x7d")
    (hpre : processIgnores cwd mo2dir pre = .ok lp)
    (hres : (if isAbsStr e then normalize_dir_path cwd e
             else normalize_dir_path cwd (mo2dir ++ e)) = .ok out) :
    (pyStartswith out mo2dir = false →
      processIgnores cwd mo2dir (pre ++ e :: post) =
        .error (.sanguinicError (mo2AbortMsg e))) ∧
    (pyStartswith out mo2dir = true →
      mo2dir ++ pyDrop out (pyLen mo2dir) = out ∧
      to_short_path mo2dir out = .ok (pyDrop out (pyLen mo2dir)) ∧
      processIgnores cwd mo2dir (pre ++ e :: post) =
        (processIgnores cwd mo2dir post).map (fun l => lp ++ out :: l)) := by
  have hmo2 : _normalize_mo2_dir_path cwd e mo2dir =
      if pyStartswith out mo2dir = true then .ok out
      else .error (.sanguinicError (mo2AbortMsg e)) := by
    by_cases hA : isAbsStr e = true
    · rw [if_pos hA] at hres
      rw [_normalize_mo2_dir_path, if_pos hA, hres]
      rfl
    · rw [if_neg hA] at hres
      rw [_normalize_mo2_dir_path, if_neg hA, hres]
      rfl
  have hmain := processIgnores_append cwd mo2dir pre (e :: post)
  rw [hpre] at hmain
  constructor
  · intro hst
    rw [hmain, processIgnores, if_neg he, hmo2, if_neg (by simp [hst])]
  · intro hst
    refine ⟨?_, ?_, ?_⟩
    · have hp : mo2dir.data <+: out.data := pyStartswith_iff.mp hst
      have := List.prefix_iff_eq_append.mp hp
      apply String.ext
      rw [String.data_append]
      exact this
    · rw [to_short_path, if_pos hst]
    · rw [hmain, processIgnores, if_neg he, hmo2, if_pos hst]
      cases hpost : processIgnores cwd mo2dir post with
      | error er => rfl
      | ok b => rfl

theorem C4_ignores_containment_witness :
    (pyStartswith "c:\\mo2\\sub\\" "c:\\mo2\\" = false →
      processIgnores "c:\\cwd" "c:\\mo2\\" ([] ++ "sub" :: []) =
        .error (.sanguinicError (mo2AbortMsg "sub"))) ∧
    (pyStartswith "c:\\mo2\\sub\\" "c:\\mo2\\" = true →
      "c:\\mo2\\" ++ pyDrop "c:\\mo2\\sub\\" (pyLen "c:\\mo2\\") = "c:\\mo2\\sub\\" ∧
      to_short_path "c:\\mo2\\" "c:\\mo2\\sub\\" =
        .ok (pyDrop "c:\\mo2\\sub\\" (pyLen "c:\\mo2\\")) ∧
      processIgnores "c:\\cwd" "c:\\mo2\\" ([] ++ "sub" :: []) =
        (processIgnores "c:\\cwd" "c:\\mo2\\" []).map
          (fun l => [] ++ "c:\\mo2\\sub\\" :: l)) :=
  C4_ignores_containment "c:\\cwd" "c:\\mo2\\" "sub" "c:\\mo2\\sub\\" [] [] []
    (by decide) rfl (by decide)

/-! ### Lemmas about `splitSep`, `joinSep` and `normParts` -/

theorem normParts_nil (rooted : Bool) (acc : List (List Char)) :
    normParts rooted acc [] = acc.reverse := rfl

theorem normParts_cons (rooted : Bool) (acc : List (List Char)) (c : List Char)
    (cs : List (List Char)) :
    normParts rooted acc (c :: cs) =
      if c = [] ∨ c = ['.'] then normParts rooted acc cs
      else if c = ['.', '.'] then
        match acc with
        | [] => if rooted then normParts rooted [] cs else normParts rooted [c] cs
        | a :: acctl =>
          if a = ['.', '.'] then normParts rooted (c :: a :: acctl) cs
          else normParts rooted acctl cs
      else normParts rooted (c :: acc) cs := by
  cases acc <;> rfl

theorem joinSep_cons (x : List Char) (xs : List (List Char)) :
    joinSep (x :: xs) = x ++ (if xs = [] then [] else '\\' :: joinSep xs) := by
  cases xs with
  | nil => simp [joinSep]
  | cons y ys => simp [joinSep]

theorem splitSep_ne_nil (l : List Char) : splitSep l ≠ [] := by
  cases l with
  | nil => simp [splitSep]
  | cons c rest =>
    rw [splitSep]
    split
    · simp
    · split
      · simp
      · simp

theorem splitSep_sepFree (z : List Char) (hz : '\\' ∉ z) : splitSep z = [z] := by
  induction z with
  | nil => rfl
  | cons c rest ih =>
    rw [splitSep, if_neg (by simp at hz; exact fun he => hz.1 he.symm)]
    rw [ih (by simp at hz; exact hz.2)]

theorem splitSep_append_sep (z w : List Char) (hz : '\\' ∉ z) :
    splitSep (z ++ '\\' :: w) = z :: splitSep w := by
  induction z with
  | nil => simp [splitSep]
  | cons c rest ih =>
    rw [List.cons_append, splitSep, if_neg (by simp at hz; exact fun he => hz.1 he.symm)]
    rw [ih (by simp at hz; exact hz.2)]

theorem splitSep_snoc_sep (l : List Char) : splitSep (l ++ ['\\']) = splitSep l ++ [[]] := by
  induction l with
  | nil => rfl
  | cons c rest ih =>
    by_cases hc : c = '\\'
    · subst hc
      rw [List.cons_append, splitSep, if_pos rfl, ih, splitSep, if_pos rfl]
      rfl
    · rw [List.cons_append, splitSep, if_neg hc, ih, splitSep, if_neg hc]
      cases hsp : splitSep rest with
      | nil => exact absurd hsp (splitSep_ne_nil rest)
      | cons p ps => rfl

theorem splitSep_joinSep (comps : List (List Char)) (hne : comps ≠ [])
    (hfree : ∀ x ∈ comps, '\\' ∉ x) :
    splitSep (joinSep comps) = comps := by
  induction comps with
  | nil => exact absurd rfl hne
  | cons x xs ih =>
    rw [joinSep_cons]
    by_cases hxs : xs = []
    · subst hxs
      rw [if_pos rfl, List.append_nil]
      exact splitSep_sepFree x (hfree x (List.mem_cons_self x []))
    · rw [if_neg hxs, splitSep_append_sep x _ (hfree x (List.mem_cons_self x xs))]
      rw [ih hxs (fun y hy => hfree y (List.mem_cons_of_mem x hy))]

theorem mem_splitSep_sep_free (l : List Char) :
    ∀ x ∈ splitSep l, '\\' ∉ x := by
  induction l with
  | nil =>
    intro x hx
    rw [splitSep] at hx
    simp at hx
    simp [hx]
  | cons c rest ih =>
    intro x hx
    rw [splitSep] at hx
    by_cases hc : c = '\\'
    · rw [if_pos hc] at hx
      rcases List.mem_cons.mp hx with h | h
      · simp [h]
      · exact ih x h
    · rw [if_neg hc] at hx
      cases hsp : splitSep rest with
      | nil => exact absurd hsp (splitSep_ne_nil rest)
      | cons p ps =>
        rw [hsp] at hx
        rcases List.mem_cons.mp hx with h | h
        · subst h
          intro hmem
          rcases List.mem_cons.mp hmem with h2 | h2
          · exact hc h2.symm
          · exact ih p (hsp ▸ List.mem_cons_self p ps) h2
        · exact ih x (hsp ▸ List.mem_cons_of_mem p h)

theorem mem_splitSep_subset (l : List Char) :
    ∀ x ∈ splitSep l, ∀ a ∈ x, a ∈ l := by
  induction l with
  | nil =>
    intro x hx a ha
    rw [splitSep] at hx
    simp at hx
    subst hx
    simp at ha
  | cons c rest ih =>
    intro x hx a ha
    rw [splitSep] at hx
    by_cases hc : c = '\\'
    · rw [if_pos hc] at hx
      rcases List.mem_cons.mp hx with h | h
      · subst h; simp at ha
      · exact List.mem_cons_of_mem c (ih x h a ha)
    · rw [if_neg hc] at hx
      cases hsp : splitSep rest with
      | nil => exact absurd hsp (splitSep_ne_nil rest)
      | cons p ps =>
        rw [hsp] at hx
        rcases List.mem_cons.mp hx with h | h
        · subst h
          rcases List.mem_cons.mp ha with h2 | h2
          · simp [h2]
          · exact List.mem_cons_of_mem c (ih p (hsp ▸ List.mem_cons_self p ps) a h2)
        · exact List.mem_cons_of_mem c (ih x (hsp ▸ List.mem_cons_of_mem p h) a ha)

theorem normParts_rooted_mem (cs : List (List Char)) :
    ∀ acc, ∀ x ∈ normParts true acc cs, x ∈ acc ∨ x ∈ cs := by
  induction cs with
  | nil =>
    intro acc x hx
    rw [normParts_nil] at hx
    exact Or.inl (List.mem_reverse.mp hx)
  | cons c cs ih =>
    intro acc x hx
    rw [normParts_cons] at hx
    split at hx
    · rcases ih acc x hx with h | h
      · exact Or.inl h
      · exact Or.inr (List.mem_cons_of_mem c h)
    · split at hx
      · split at hx
        · rcases ih [] x hx with h | h
          · simp at h
          · exact Or.inr (List.mem_cons_of_mem c h)
        · next a acctl =>
          split at hx
          · rcases ih _ x hx with h | h
            · rcases List.mem_cons.mp h with h2 | h2
              · exact Or.inr (List.mem_cons.mpr (Or.inl h2))
              · exact Or.inl h2
            · exact Or.inr (List.mem_cons_of_mem c h)
          · rcases ih acctl x hx with h | h
            · exact Or.inl (List.mem_cons_of_mem a h)
            · exact Or.inr (List.mem_cons_of_mem c h)
      · rcases ih _ x hx with h | h
        · rcases List.mem_cons.mp h with h2 | h2
          · exact Or.inr (List.mem_cons.mpr (Or.inl h2))
          · exact Or.inl h2
        · exact Or.inr (List.mem_cons_of_mem c h)

theorem normParts_rooted_shape (cs : List (List Char)) :
    ∀ acc, (∀ x ∈ acc, x ≠ [] ∧ x ≠ ['.'] ∧ x ≠ ['.', '.']) →
      ∀ x ∈ normParts true acc cs, x ≠ [] ∧ x ≠ ['.'] ∧ x ≠ ['.', '.'] := by
  induction cs with
  | nil =>
    intro acc hacc x hx
    rw [normParts_nil] at hx
    exact hacc x (List.mem_reverse.mp hx)
  | cons c cs ih =>
    intro acc hacc x hx
    rw [normParts_cons] at hx
    split at hx
    · exact ih acc hacc x hx
    · split at hx
      · split at hx
        · exact ih [] (by simp) x hx
        · next a acctl =>
          split at hx
          · next ha =>
            exact absurd ha (hacc a (List.mem_cons_self a acctl)).2.2
          · exact ih acctl (fun y hy => hacc y (List.mem_cons_of_mem a hy)) x hx
      · next h1 h2 =>
        refine ih _ ?_ x hx
        intro y hy
        rcases List.mem_cons.mp hy with h3 | h3
        · subst h3
          refine ⟨?_, ?_, h2⟩
          · intro he; exact h1 (Or.inl he)
          · intro he; exact h1 (Or.inr he)
        · exact hacc y h3

theorem normParts_all_good (cs : List (List Char))
    (h : ∀ x ∈ cs, x ≠ [] ∧ x ≠ ['.'] ∧ x ≠ ['.', '.']) :
    ∀ acc rooted, normParts rooted acc cs = acc.reverse ++ cs := by
  induction cs with
  | nil => intro acc rooted; rw [normParts_nil]; simp
  | cons c cs ih =>
    intro acc rooted
    have hc := h c (List.mem_cons_self c cs)
    rw [normParts_cons, if_neg (by rintro (he | he) <;> simp_all), if_neg hc.2.2]
    rw [ih (fun y hy => h y (List.mem_cons_of_mem c hy)) (c :: acc) rooted]
    simp

theorem normParts_snoc_nil (cs : List (List Char)) :
    ∀ acc rooted, normParts rooted acc (cs ++ [[]]) = normParts rooted acc cs := by
  induction cs with
  | nil =>
    intro acc rooted
    rw [List.nil_append, normParts_cons, if_pos (Or.inl rfl)]
  | cons c cs ih =>
    intro acc rooted
    rw [List.cons_append, normParts_cons, normParts_cons]
    split
    · exact ih acc rooted
    · split
      · split
        · split
          · exact ih [] rooted
          · exact ih _ rooted
        · split
          · exact ih _ rooted
          · exact ih _ rooted
      · exact ih _ rooted

/-! ### Special characters under `Char.toLower` -/

theorem toLower_eq_bslash {c : Char} : Char.toLower c = '\\' ↔ c = '\\' :=
  charToLower_eq_special (by decide) (by decide) c

theorem toLower_eq_slash {c : Char} : Char.toLower c = '/' ↔ c = '/' :=
  charToLower_eq_special (by decide) (by decide) c

theorem toLower_eq_colon {c : Char} : Char.toLower c = ':' ↔ c = ':' :=
  charToLower_eq_special (by decide) (by decide) c

theorem toLower_eq_dot {c : Char} : Char.toLower c = '.' ↔ c = '.' :=
  charToLower_eq_special (by decide) (by decide) c

/-! ### Normal-form stability of `ntpath.normpath` -/

theorem replAlt_eq_self (l : List Char) (h : '/' ∉ l) : replAlt l = l := by
  rw [replAlt]
  conv_rhs => rw [← List.map_id l]
  apply List.map_congr_left
  intro a ha
  by_cases he : a = '/'
  · exact absurd (he ▸ ha) h
  · rw [if_neg he]
    rfl

theorem slash_not_mem_replAlt (l : List Char) : '/' ∉ replAlt l := by
  intro hm
  obtain ⟨c, _, hc⟩ := List.mem_map.mp hm
  by_cases h : c = '/'
  · rw [if_pos h] at hc
    exact absurd hc (by decide)
  · rw [if_neg h] at hc
    exact h hc

theorem colon_not_mem_replAlt (l : List Char) (h : ':' ∉ l) : ':' ∉ replAlt l := by
  intro hm
  obtain ⟨c, hcm, hc⟩ := List.mem_map.mp hm
  by_cases h2 : c = '/'
  · rw [if_pos h2] at hc
    exact absurd hc (by decide)
  · rw [if_neg h2] at hc
    exact h (hc ▸ hcm)

theorem splitDriveL_shape (l : List Char) :
    (splitDriveL l = ([], l) ∧ ∀ c1 c2 rest, l = c1 :: c2 :: rest → c2 ≠ ':') ∨
    (∃ c1 rest, l = c1 :: ':' :: rest ∧ splitDriveL l = ([c1, ':'], rest)) := by
  match l with
  | [] => exact Or.inl ⟨rfl, by intro c1 c2 rest h; simp at h⟩
  | [c] => exact Or.inl ⟨rfl, by intro c1 c2 rest h; simp at h⟩
  | c1 :: c2 :: rest =>
    by_cases h : c2 = ':'
    · subst h
      exact Or.inr ⟨c1, rest, rfl, rfl⟩
    · left
      constructor
      · rw [splitDriveL.eq_def]
        split
        · next heq =>
          injection heq with h1 h2
          injection h2 with h2 h3
          exact absurd h2 h
        · rfl
      · intro d1 d2 drest he
        injection he with he1 he2
        injection he2 with he2 he3
        exact fun hd => h (he2.trans hd)

theorem splitDriveL_recompose (d t : List Char) (hd : goodDrive d)
    (ht : ∀ c ts, t = c :: ts → c ≠ ':') :
    splitDriveL (d ++ '\\' :: t) = (d, '\\' :: t) := by
  rcases hd with rfl | ⟨c0, rfl, _, _⟩
  · rw [List.nil_append]
    cases t with
    | nil => rfl
    | cons c ts =>
      rw [splitDriveL.eq_def]
      split
      · next heq =>
        injection heq with h1 h2
        injection h2 with h2 h3
        exact absurd h2 (ht c ts rfl)
      · rfl
  · rfl

theorem mem_joinSep (comps : List (List Char)) (a : Char) (h : a ∈ joinSep comps) :
    a = '\\' ∨ ∃ x ∈ comps, a ∈ x := by
  induction comps with
  | nil => rw [joinSep] at h; simp at h
  | cons x xs ih =>
    rw [joinSep_cons] at h
    rcases List.mem_append.mp h with h2 | h2
    · exact Or.inr ⟨x, List.mem_cons_self x xs, h2⟩
    · by_cases hxs : xs = []
      · rw [if_pos hxs] at h2; simp at h2
      · rw [if_neg hxs] at h2
        rcases List.mem_cons.mp h2 with h3 | h3
        · exact Or.inl h3
        · rcases ih h3 with h4 | ⟨y, hy1, hy2⟩
          · exact Or.inl h4
          · exact Or.inr ⟨y, List.mem_cons_of_mem x hy1, hy2⟩

theorem joinSep_head_ne (comps : List (List Char)) (h : ∀ x ∈ comps, goodComp x) :
    ∀ c ts, joinSep comps = c :: ts → (c ≠ ':' ∧ c ≠ '\\' ∧ c ≠ '/') := by
  intro c ts he
  have hcm : c ∈ joinSep comps := he ▸ List.mem_cons_self c ts
  rcases mem_joinSep comps c hcm with h2 | ⟨x, hx1, hx2⟩
  · -- the head of `joinSep comps` cannot be the separator: the first
    -- component is nonempty and separator-free
    exfalso
    cases comps with
    | nil => rw [joinSep] at he; simp at he
    | cons y ys =>
      have hy := h y (List.mem_cons_self y ys)
      rw [joinSep_cons] at he
      cases hyl : y with
      | nil => exact hy.1 hyl
      | cons b bs =>
        rw [hyl, List.cons_append] at he
        injection he with he1 he2
        have hb : b = '\\' := he1.trans h2
        apply hy.2.2.2.1
        rw [hyl, hb]
        exact List.mem_cons_self _ _
  · have hx := h x hx1
    exact ⟨fun he2 => hx.2.2.2.2.2 (he2 ▸ hx2),
           fun he2 => hx.2.2.2.1 (he2 ▸ hx2),
           fun he2 => hx.2.2.2.2.1 (he2 ▸ hx2)⟩

theorem NF_no_slash (a : List Char) (h : NF a) : '/' ∉ a := by
  obtain ⟨d, comps, hd, hcomps, rfl⟩ := h
  intro hm
  rcases List.mem_append.mp hm with h2 | h2
  · rcases hd with rfl | ⟨c0, rfl, hc1, _⟩
    · simp at h2
    · rcases List.mem_cons.mp h2 with h3 | h3
      · rw [← h3] at hc1; simp [isSepChar] at hc1
      · simp at h3
  · rcases List.mem_cons.mp h2 with h3 | h3
    · exact absurd h3 (by decide)
    · rcases mem_joinSep comps '/' h3 with h4 | ⟨x, hx1, hx2⟩
      · exact absurd h4 (by decide)
      · exact (hcomps x hx1).2.2.2.2.1 hx2

theorem joinSep_ne_nil (comps : List (List Char)) (hne : comps ≠ [])
    (h : ∀ x ∈ comps, goodComp x) : joinSep comps ≠ [] := by
  cases comps with
  | nil => exact absurd rfl hne
  | cons x xs =>
    rw [joinSep_cons]
    intro he
    rcases List.append_eq_nil.mp he with ⟨hx, -⟩
    exact (h x (List.mem_cons_self x xs)).1 hx

theorem ntNormpathL_compute (p0 d t : List Char)
    (h1 : replAlt p0 = p0) (h2 : splitDriveL p0 = (d, '\\' :: t)) :
    ntNormpathL p0 =
      (d ++ ['\\']) ++ joinSep (normParts true [] (splitSep (t.dropWhile (· == '\\')))) := by
  rw [ntNormpathL]
  simp only [h1, h2, List.dropWhile_cons]
  norm_num

theorem NF_normpath (a : List Char) (h : NF a) : ntNormpathL a = a := by
  obtain ⟨d, comps, hd, hcomps, rfl⟩ := h
  have hnf : NF (d ++ '\\' :: joinSep comps) := ⟨d, comps, hd, hcomps, rfl⟩
  have h1 : replAlt (d ++ '\\' :: joinSep comps) = d ++ '\\' :: joinSep comps :=
    replAlt_eq_self _ (NF_no_slash _ hnf)
  have h2 : splitDriveL (d ++ '\\' :: joinSep comps) = (d, '\\' :: joinSep comps) :=
    splitDriveL_recompose d _ hd (fun c ts he => (joinSep_head_ne comps hcomps c ts he).1)
  rw [ntNormpathL_compute _ d _ h1 h2]
  by_cases hc : comps = []
  · subst hc
    rw [joinSep]
    norm_num [splitSep, normParts_cons, normParts_nil, joinSep]
  · obtain ⟨c, ts, hTc, hcne⟩ : ∃ c ts, joinSep comps = c :: ts ∧ c ≠ '\\' := by
      cases hTc : joinSep comps with
      | nil => exact absurd hTc (joinSep_ne_nil comps hc hcomps)
      | cons c ts => exact ⟨c, ts, rfl, (joinSep_head_ne comps hcomps c ts hTc).2.1⟩
    rw [hTc, List.dropWhile_cons, if_neg (by simp [hcne]), ← hTc]
    rw [splitSep_joinSep comps hc (fun x hx => (hcomps x hx).2.2.2.1)]
    rw [normParts_all_good comps
      (fun x hx => ⟨(hcomps x hx).1, (hcomps x hx).2.1, (hcomps x hx).2.2.1⟩) [] true]
    simp

theorem NF_normpath_snoc (a : List Char) (h : NF a) : ntNormpathL (a ++ ['\\']) = a := by
  obtain ⟨d, comps, hd, hcomps, rfl⟩ := h
  have hnf : NF (d ++ '\\' :: joinSep comps) := ⟨d, comps, hd, hcomps, rfl⟩
  have hre : (d ++ '\\' :: joinSep comps) ++ ['\\'] = d ++ '\\' :: (joinSep comps ++ ['\\']) := by
    simp
  rw [hre]
  have h1 : replAlt (d ++ '\\' :: (joinSep comps ++ ['\\'])) =
      d ++ '\\' :: (joinSep comps ++ ['\\']) := by
    apply replAlt_eq_self
    intro hm
    rw [← hre] at hm
    rcases List.mem_append.mp hm with hm | hm
    · exact NF_no_slash _ hnf hm
    · exact absurd hm (by decide)
  have h2 : splitDriveL (d ++ '\\' :: (joinSep comps ++ ['\\'])) =
      (d, '\\' :: (joinSep comps ++ ['\\'])) := by
    apply splitDriveL_recompose d _ hd
    intro c ts he
    cases hTc : joinSep comps with
    | nil =>
      rw [hTc, List.nil_append] at he
      injection he with he1 he2
      rw [← he1]
      decide
    | cons c0 ts0 =>
      rw [hTc, List.cons_append] at he
      injection he with he1 he2
      rw [← he1]
      exact (joinSep_head_ne comps hcomps c0 _ hTc).1
  rw [ntNormpathL_compute _ d _ h1 h2]
  by_cases hc : comps = []
  · subst hc
    rw [joinSep]
    norm_num [splitSep, normParts_cons, normParts_nil, joinSep]
  · obtain ⟨c, ts, hTc, hcne⟩ : ∃ c ts, joinSep comps = c :: ts ∧ c ≠ '\\' := by
      cases hTc : joinSep comps with
      | nil => exact absurd hTc (joinSep_ne_nil comps hc hcomps)
      | cons c ts => exact ⟨c, ts, rfl, (joinSep_head_ne comps hcomps c ts hTc).2.1⟩
    rw [hTc, List.cons_append, List.dropWhile_cons, if_neg (by simp [hcne]),
      ← List.cons_append, ← hTc]
    rw [splitSep_snoc_sep, splitSep_joinSep comps hc (fun x hx => (hcomps x hx).2.2.2.1)]
    rw [normParts_snoc_nil]
    rw [normParts_all_good comps
      (fun x hx => ⟨(hcomps x hx).1, (hcomps x hx).2.1, (hcomps x hx).2.2.1⟩) [] true]
    simp

theorem map_joinSep (f : Char → Char) (hf : f '\\' = '\\') (comps : List (List Char)) :
    (joinSep comps).map f = joinSep (comps.map (List.map f)) := by
  induction comps with
  | nil => rfl
  | cons x xs ih =>
    rw [joinSep_cons, List.map_cons, joinSep_cons, List.map_append]
    congr 1
    by_cases hxs : xs = []
    · subst hxs; simp
    · rw [if_neg hxs, if_neg (by simp [hxs]), List.map_cons, hf, ih]

theorem NF_map_toLower (a : List Char) (h : NF a) : NF (a.map Char.toLower) := by
  obtain ⟨d, comps, hd, hcomps, rfl⟩ := h
  refine ⟨d.map Char.toLower, comps.map (List.map Char.toLower), ?_, ?_, ?_⟩
  · rcases hd with rfl | ⟨c0, rfl, hc1, hc2⟩
    · exact Or.inl rfl
    · refine Or.inr ⟨Char.toLower c0, ?_, ?_, fun he => hc2 (toLower_eq_colon.mp he)⟩
      · rw [List.map_cons, List.map_cons, List.map_nil,
          show Char.toLower ':' = ':' from by decide]
      · have hb : Char.toLower c0 ≠ '\\' := by
          intro he
          rw [toLower_eq_bslash.mp he, isSepChar] at hc1
          simp at hc1
        have hs : Char.toLower c0 ≠ '/' := by
          intro he
          rw [toLower_eq_slash.mp he, isSepChar] at hc1
          simp at hc1
        rw [isSepChar]
        simp [hb, hs]
  · intro x hx
    obtain ⟨y, hy1, rfl⟩ := List.mem_map.mp hx
    have hy := hcomps y hy1
    refine ⟨by simp [hy.1], ?_, ?_, ?_, ?_, ?_⟩
    · intro he
      have hl : y.length = 1 := by
        rw [← List.length_map y Char.toLower, he]
        rfl
      obtain ⟨b, rfl⟩ := List.length_eq_one.mp hl
      simp at he
      exact hy.2.1 (by rw [toLower_eq_dot.mp he])
    · intro he
      have hl : y.length = 2 := by
        rw [← List.length_map y Char.toLower, he]
        rfl
      obtain ⟨b1, b2, rfl⟩ := List.length_eq_two.mp hl
      simp at he
      exact hy.2.2.1 (by rw [toLower_eq_dot.mp he.1, toLower_eq_dot.mp he.2])
    · intro hm
      obtain ⟨c, hc1, hc2⟩ := List.mem_map.mp hm
      exact hy.2.2.2.1 (toLower_eq_bslash.mp hc2 ▸ hc1)
    · intro hm
      obtain ⟨c, hc1, hc2⟩ := List.mem_map.mp hm
      exact hy.2.2.2.2.1 (toLower_eq_slash.mp hc2 ▸ hc1)
    · intro hm
      obtain ⟨c, hc1, hc2⟩ := List.mem_map.mp hm
      exact hy.2.2.2.2.2 (toLower_eq_colon.mp hc2 ▸ hc1)
  · rw [List.map_append, List.map_cons, show Char.toLower '\\' = '\\' from by decide,
      map_joinSep Char.toLower (by decide) comps]

theorem singleton_suffix_iff (c : Char) (l : List Char) :
    [c] <:+ l ↔ l.getLast? = some c := by
  constructor
  · rintro ⟨t, rfl⟩
    exact List.getLast?_concat t
  · intro h
    induction l using List.reverseRecOn with
    | nil => simp at h
    | append_singleton t x _ =>
      rw [List.getLast?_concat] at h
      injection h with h
      exact ⟨t, by rw [h]⟩

theorem pyEndswith_sep_iff (s : String) :
    pyEndswith s "\\" = true ↔ s.data.getLast? = some '\\' := by
  rw [pyEndswith_iff]
  rw [show ("\\" : String).data = ['\\'] from rfl]
  exact singleton_suffix_iff '\\' s.data

/-! ### `abspath` outputs are in normal form -/

theorem replAlt_append (a b : List Char) : replAlt (a ++ b) = replAlt a ++ replAlt b := by
  rw [replAlt, replAlt, replAlt, List.map_append]

theorem replAlt_cons (c : Char) (l : List Char) :
    replAlt (c :: l) = (if c = '/' then '\\' else c) :: replAlt l := rfl

theorem splitDriveL_fst_nil (l : List Char) (h : (splitDriveL l).1 = []) :
    (splitDriveL l).2 = l := by
  rcases splitDriveL_shape l with ⟨hsd, -⟩ | ⟨c1, rest, hpe, hsd⟩
  · rw [hsd]
  · rw [hsd] at h
    simp at h

theorem isAbs_head (l : List Char) (h : isAbsL l = true) :
    ∃ c rs, (splitDriveL l).2 = c :: rs ∧ isSepChar c = true := by
  rw [isAbsL] at h
  cases hsd : (splitDriveL l).2 with
  | nil => rw [hsd] at h; exact absurd h (by simp)
  | cons c rs => rw [hsd] at h; exact ⟨c, rs, rfl, h⟩

theorem wfPathB_spec (s : String) (h : wfPathB s = true) :
    ':' ∉ (splitDriveL s.data).2 ∧ goodDrive (splitDriveL s.data).1 := by
  rw [wfPathB] at h
  obtain ⟨h1, h2⟩ := Bool.and_eq_true_iff.mp h
  constructor
  · intro hm
    rw [Bool.not_eq_true'] at h1
    simp at h1
    exact h1 hm
  · rcases splitDriveL_shape s.data with ⟨hsd, -⟩ | ⟨c1, rest, hpe, hsd⟩
    · rw [hsd]
      exact Or.inl rfl
    · rw [hsd]
      rw [hsd] at h2
      simp only at h2
      obtain ⟨h3, h4⟩ := Bool.and_eq_true_iff.mp h2
      rw [Bool.not_eq_true'] at h3 h4
      refine Or.inr ⟨c1, rfl, h3, ?_⟩
      simpa using h4

theorem splitDriveL_replAlt_recompose (d r : List Char) (hd : goodDrive d) (hr : ':' ∉ r)
    (hsep : ∃ c rs, r = c :: rs ∧ isSepChar c = true) :
    ∃ t, splitDriveL (replAlt (d ++ r)) = (d, '\\' :: t) ∧ ':' ∉ t ∧ '/' ∉ t := by
  obtain ⟨c, rs, rfl, hc⟩ := hsep
  have hrd : replAlt d = d := by
    apply replAlt_eq_self
    rcases hd with rfl | ⟨c0, rfl, hc1, hc2⟩
    · simp
    · intro hm
      rcases List.mem_cons.mp hm with h2 | h2
      · rw [← h2, isSepChar] at hc1
        simp at hc1
      · exact absurd h2 (by decide)
  have hrc : (if c = '/' then '\\' else c) = '\\' := by
    rw [isSepChar] at hc
    simp at hc
    rcases hc with rfl | rfl
    · rw [if_neg (by decide)]
    · rw [if_pos rfl]
  have hra : replAlt (d ++ c :: rs) = d ++ '\\' :: replAlt rs := by
    rw [replAlt_append, replAlt_cons, hrd, hrc]
  have hcol : ':' ∉ replAlt rs :=
    colon_not_mem_replAlt rs (fun hm => hr (List.mem_cons_of_mem c hm))
  refine ⟨replAlt rs, ?_, hcol, slash_not_mem_replAlt rs⟩
  rw [hra]
  apply splitDriveL_recompose d _ hd
  intro c2 ts he
  exact fun heq => hcol (heq ▸ he ▸ List.mem_cons_self c2 ts)

theorem ntNormpathL_compute' (p0 d t : List Char)
    (h2 : splitDriveL (replAlt p0) = (d, '\\' :: t)) :
    ntNormpathL p0 =
      (d ++ ['\\']) ++ joinSep (normParts true [] (splitSep (t.dropWhile (· == '\\')))) := by
  rw [ntNormpathL]
  simp only [h2, List.dropWhile_cons]
  norm_num

theorem NF_build (d W : List Char) (hd : goodDrive d) (hW1 : '/' ∉ W) (hW2 : ':' ∉ W) :
    NF ((d ++ ['\\']) ++ joinSep (normParts true [] (splitSep (W.dropWhile (· == '\\'))))) := by
  refine ⟨d, normParts true [] (splitSep (W.dropWhile (· == '\\'))), hd, ?_, by simp⟩
  intro x hx
  have hmem : x ∈ splitSep (W.dropWhile (· == '\\')) := by
    rcases normParts_rooted_mem _ [] x hx with h | h
    · simp at h
    · exact h
  have hshape := normParts_rooted_shape _ [] (by simp) x hx
  have hsepf := mem_splitSep_sep_free _ x hmem
  have hsub : ∀ a ∈ x, a ∈ W := fun a ha =>
    (List.dropWhile_sublist (· == '\\')).subset (mem_splitSep_subset _ x hmem a ha)
  exact ⟨hshape.1, hshape.2.1, hshape.2.2, hsepf,
    fun hm => hW1 (hsub '/' hm), fun hm => hW2 (hsub ':' hm)⟩

theorem absPath_NF (cwd p : String) (hc : isAbsStr cwd = true) (hwc : wfPathB cwd = true)
    (hwp : wfPathB p = true) (hdr : driveRelFreeB p = true) :
    NF (absPath cwd p).data := by
  show NF (absPathL cwd.data p.data)
  rw [absPathL]
  by_cases habs : isAbsL p.data = true
  · rw [if_pos habs]
    obtain ⟨hwp1, hwp2⟩ := wfPathB_spec p hwp
    obtain ⟨d, r, hdec, hd, hr, hsep⟩ :
        ∃ d r, p.data = d ++ r ∧ goodDrive d ∧ ':' ∉ r ∧
          ∃ c rs, r = c :: rs ∧ isSepChar c = true := by
      rcases splitDriveL_shape p.data with ⟨hsd, -⟩ | ⟨c1, rest, hpe, hsd⟩
      · refine ⟨[], p.data, by simp, Or.inl rfl, ?_, ?_⟩
        · rw [hsd] at hwp1; exact hwp1
        · obtain ⟨c, rs, hcr, hcs⟩ := isAbs_head p.data habs
          rw [hsd] at hcr
          exact ⟨c, rs, hcr, hcs⟩
      · refine ⟨[c1, ':'], rest, hpe, ?_, ?_, ?_⟩
        · rw [hsd] at hwp2; exact hwp2
        · rw [hsd] at hwp1; exact hwp1
        · obtain ⟨c, rs, hcr, hcs⟩ := isAbs_head p.data habs
          rw [hsd] at hcr
          exact ⟨c, rs, hcr, hcs⟩
    obtain ⟨t, hsp, hct, hst⟩ := splitDriveL_replAlt_recompose d r hd hr hsep
    rw [hdec, ntNormpathL_compute' (d ++ r) d t hsp]
    exact NF_build d t hd hst hct
  · rw [if_neg habs]
    have hpd : (splitDriveL p.data).1 = [] := by
      rw [driveRelFreeB] at hdr
      rcases Bool.or_eq_true_iff.mp hdr with h | h
      · simpa using h
      · exact absurd h habs
    have hp2 : (splitDriveL p.data).2 = p.data := splitDriveL_fst_nil p.data hpd
    obtain ⟨hwc1, hwc2⟩ := wfPathB_spec cwd hwc
    obtain ⟨hwp1, -⟩ := wfPathB_spec p hwp
    obtain ⟨s0, t0, hcd2, hs0⟩ := isAbs_head cwd.data hc
    have hjoin : ntJoinRelL cwd.data p.data =
        (splitDriveL cwd.data).1 ++
          ((if (splitDriveL cwd.data).2 ≠ [] ∧ ¬ lastIsSep (splitDriveL cwd.data).2
            then (splitDriveL cwd.data).2 ++ ['\\'] else (splitDriveL cwd.data).2) ++ p.data) := by
      rw [ntJoinRelL]
      rw [if_neg (by simp [hpd])]
      simp only [hpd, hp2]
      simp
    rw [hjoin]
    set cpath := (if (splitDriveL cwd.data).2 ≠ [] ∧ ¬ lastIsSep (splitDriveL cwd.data).2
      then (splitDriveL cwd.data).2 ++ ['\\'] else (splitDriveL cwd.data).2) with hcpath
    have hrsep : ∃ c rs, cpath ++ p.data = c :: rs ∧ isSepChar c = true := by
      rw [hcpath]
      split
      · rw [hcd2]
        exact ⟨s0, (t0 ++ ['\\']) ++ p.data, by simp, hs0⟩
      · rw [hcd2]
        exact ⟨s0, t0 ++ p.data, by simp, hs0⟩
    have hrcol : ':' ∉ cpath ++ p.data := by
      intro hm
      rcases List.mem_append.mp hm with hm | hm
      · rw [hcpath] at hm
        split at hm
        · rcases List.mem_append.mp hm with hm2 | hm2
          · exact hwc1 hm2
          · exact absurd hm2 (by decide)
        · exact hwc1 hm
      · rw [← hp2] at hm
        exact hwp1 hm
    obtain ⟨t, hsp, hct, hst⟩ :=
      splitDriveL_replAlt_recompose (splitDriveL cwd.data).1 (cpath ++ p.data) hwc2 hrcol hrsep
    rw [ntNormpathL_compute' _ _ t hsp]
    exact NF_build _ t hwc2 hst hct

/-! ### Idempotence of the normalizers -/

theorem pyLower_pyLower (s : String) : pyLower (pyLower s) = pyLower s := by
  apply String.ext
  show (s.data.map Char.toLower).map Char.toLower = s.data.map Char.toLower
  rw [List.map_map]
  exact List.map_congr_left (fun a _ => charToLower_toLower a)

theorem hasSlash_false (s : String) (h : '/' ∉ s.data) : hasSlash s = false := by
  rw [hasSlash]
  simp
  exact h

theorem NF_isAbs (b : List Char) (h : NF b) : isAbsL b = true := by
  obtain ⟨d, comps, hd, hcomps, rfl⟩ := h
  have hsd : splitDriveL (d ++ '\\' :: joinSep comps) = (d, '\\' :: joinSep comps) :=
    splitDriveL_recompose d _ hd (fun c ts he => (joinSep_head_ne comps hcomps c ts he).1)
  rw [isAbsL, hsd]
  rfl

theorem NF_isAbs_snoc (b : List Char) (h : NF b) : isAbsL (b ++ ['\\']) = true := by
  obtain ⟨d, comps, hd, hcomps, rfl⟩ := h
  have hre : (d ++ '\\' :: joinSep comps) ++ ['\\'] = d ++ '\\' :: (joinSep comps ++ ['\\']) := by
    simp
  have hsd : splitDriveL ((d ++ '\\' :: joinSep comps) ++ ['\\']) =
      (d, '\\' :: (joinSep comps ++ ['\\'])) := by
    rw [hre]
    apply splitDriveL_recompose d _ hd
    intro c ts he
    cases hTc : joinSep comps with
    | nil =>
      rw [hTc, List.nil_append] at he
      injection he with he1 he2
      rw [← he1]
      decide
    | cons c0 ts0 =>
      rw [hTc, List.cons_append] at he
      injection he with he1 he2
      rw [← he1]
      exact (joinSep_head_ne comps hcomps c0 _ hTc).1
  rw [isAbsL, hsd]
  rfl

theorem pyEndswith_sep_lower_false (s : String) (h : pyEndswith s "\\" = false) :
    pyEndswith (pyLower s) "\\" = false := by
  rw [Bool.eq_false_iff]
  intro hT
  have h2 := (pyEndswith_sep_iff (pyLower s)).mp hT
  have h3 : (pyLower s).data.getLast? = (s.data.getLast?).map Char.toLower := by
    show (s.data.map Char.toLower).getLast? = _
    exact List.getLast?_map Char.toLower s.data
  rw [h3] at h2
  cases ho : s.data.getLast? with
  | none => rw [ho] at h2; simp at h2
  | some c =>
    rw [ho] at h2
    simp at h2
    rw [toLower_eq_bslash.mp h2] at ho
    rw [(pyEndswith_sep_iff s).mpr ho] at h
    exact absurd h (by simp)

theorem pyEndswith_slash_false_of_not_mem (s : String) (h : '/' ∉ s.data) :
    pyEndswith s "/" = false := by
  rw [Bool.eq_false_iff]
  intro hT
  have h2 := pyEndswith_iff.mp hT
  exact h (h2.subset (by decide))

theorem normalize_dir_path_ok_parts (cwd p q : String)
    (h : normalize_dir_path cwd p = .ok q) :
    hasSlash (absPath cwd p) = false ∧ pyEndswith (absPath cwd p) "\\" = false ∧
      q = pyLower (absPath cwd p) ++ "\\" := by
  rw [normalize_dir_path] at h
  split at h
  · exact absurd h (by simp)
  · split at h
    · exact absurd h (by simp)
    · next h1 h2 => exact ⟨by simpa using h1, by simpa using h2, (Except.ok.inj h).symm⟩

theorem normalize_file_path_ok_parts (cwd p q : String)
    (h : normalize_file_path cwd p = .ok q) :
    hasSlash (absPath cwd p) = false ∧ q = pyLower (absPath cwd p) := by
  rw [normalize_file_path] at h
  split at h
  · exact absurd h (by simp)
  · dsimp only at h
    split at h
    · exact absurd h (by simp)
    · next h1 h2 => exact ⟨by simpa using h2, (Except.ok.inj h).symm⟩

/-- Claim C5, counterexample to the file half: `normalize_file_path`
accepts `"d:\x\.."` (no trailing separator) and returns the drive root
`"d:\"`, which `normalize_file_path` itself rejects at its
leading assertion — so `normalize_file_path` is not idempotent and does
not accept its own output on this input. -/
theorem C5_file_normalizer_counterexample :
    normalize_file_path "c:\\base" "d:\\x\\.." = .ok "d:\\" ∧
    normalize_file_path "c:\\base" "d:\\" = .error .assertionError := by
  refine ⟨by decide, by decide⟩

/-- Claim C5 as amended: for well-formed inputs of the Windows model
(absolute working directory, no UNC-colon pathology, no drive-relative
path), `normalize_dir_path` is idempotent on every input it accepts,
and `normalize_file_path` is idempotent on every accepted input whose
result does not end with the separator (inputs resolving to a drive
root are accepted but their output is rejected by the file normalizer
itself, per the counterexample). -/
theorem C5_normalize_idempotent_amended (cwd p : String)
    (hc : isAbsStr cwd = true) (hwc : wfPathB cwd = true)
    (hwp : wfPathB p = true) (hdr : driveRelFreeB p = true) :
    (∀ q, normalize_dir_path cwd p = .ok q → normalize_dir_path cwd q = .ok q) ∧
    (∀ q, normalize_file_path cwd p = .ok q → pyEndswith q "\\" = false →
      normalize_file_path cwd q = .ok q) := by
  have hNF : NF (absPath cwd p).data := absPath_NF cwd p hc hwc hwp hdr
  have hNFb : NF ((pyLower (absPath cwd p)).data) := by
    show NF ((absPath cwd p).data.map Char.toLower)
    exact NF_map_toLower _ hNF
  constructor
  · intro q hq
    obtain ⟨hs, he, rfl⟩ := normalize_dir_path_ok_parts cwd p q hq
    have hqdata : (pyLower (absPath cwd p) ++ "\\").data =
        (pyLower (absPath cwd p)).data ++ ['\\'] := by
      rw [String.data_append]
    have habsq : absPath cwd (pyLower (absPath cwd p) ++ "\\") = pyLower (absPath cwd p) := by
      apply String.ext
      show absPathL cwd.data (pyLower (absPath cwd p) ++ "\\").data = _
      rw [hqdata, absPathL, if_pos (NF_isAbs_snoc _ hNFb)]
      exact NF_normpath_snoc _ hNFb
    rw [normalize_dir_path, habsq]
    rw [if_neg (by simp [hasSlash_false _ (NF_no_slash _ hNFb)])]
    rw [if_neg (by simp [pyEndswith_sep_lower_false _ he])]
    rw [pyLower_pyLower]
  · intro q hq hqe
    obtain ⟨hs, rfl⟩ := normalize_file_path_ok_parts cwd p q hq
    have habsq : absPath cwd (pyLower (absPath cwd p)) = pyLower (absPath cwd p) := by
      apply String.ext
      show absPathL cwd.data (pyLower (absPath cwd p)).data = _
      rw [absPathL, if_pos (NF_isAbs _ hNFb)]
      exact NF_normpath _ hNFb
    rw [normalize_file_path]
    rw [if_neg (by
      simp [hqe, pyEndswith_slash_false_of_not_mem _ (NF_no_slash _ hNFb)])]
    rw [habsq]
    rw [if_neg (by simp [hasSlash_false _ (NF_no_slash _ hNFb)])]
    rw [pyLower_pyLower]

theorem C5_normalize_idempotent_amended_witness :
    normalize_dir_path "c:\\base" "D:/Foo//Bar/../baz" = .ok "d:\\foo\\baz\\" ∧
    normalize_dir_path "c:\\base" "d:\\foo\\baz\\" = .ok "d:\\foo\\baz\\" ∧
    normalize_file_path "c:\\base" "D:/Foo//Bar/../baz" = .ok "d:\\foo\\baz" ∧
    normalize_file_path "c:\\base" "d:\\foo\\baz" = .ok "d:\\foo\\baz" :=
  ⟨by decide,
   (C5_normalize_idempotent_amended "c:\\base" "D:/Foo//Bar/../baz"
      (by decide) (by decide) (by decide) (by decide)).1 _ (by decide),
   by decide,
   (C5_normalize_idempotent_amended "c:\\base" "D:/Foo//Bar/../baz"
      (by decide) (by decide) (by decide) (by decide)).2 _ (by decide) (by decide)⟩
